import Mathlib

/-!
# Verification of the Epilog trace pipeline and diagnosis engine

Shallow embedding of the core components of the Epilog repository:

* `EpilogCallbackHandler` (src/epilog/sdk/callback_handler.py): bounded event
  buffer with drop-oldest backpressure, background worker with a circuit
  breaker, and the `flush` drain barrier.
* `GeminiProvider.diagnose` (src/epilog/api/services/diagnosis/gemini_provider.py):
  markdown-fence stripping and defensive parsing of the oracle response.
* `DiagnosisEngine.run_diagnosis` (src/epilog/api/services/diagnosis/engine.py):
  context-window retrieval.
* `PatchApplier.apply_patch` (src/epilog/api/services/patch_applier.py):
  path resolution, existence check and temporary-file lifecycle.
* `TraceEventCreate.validate_event_type` (src/epilog/api/schemas.py) and the
  ingestion endpoint `create_event` (src/epilog/api/endpoints/traces.py).

Machine-level details that the claims do not touch (timestamps inside event
envelopes, logging, the HTTP wire format) are elided; every control-flow
decision relevant to a claim is modelled directly from the Python source.
-/

namespace Epilog

/-! ## EventBuffer: `EpilogCallbackHandler._enqueue_event`

`self.queue = asyncio.Queue(maxsize=queue_size)` (callback_handler.py line 54);
`_enqueue_event` (lines 116-150) does `put_nowait`, and on `QueueFull` performs
`get_nowait(); task_done(); put_nowait(event)` — i.e. it evicts the oldest
buffered event and appends the new one.  An `asyncio.Queue` with
`maxsize <= 0` is unbounded (never full); the handler's default is 1000. -/

/-- `asyncio.Queue` full test: full iff `0 < maxsize` and `maxsize <= qsize()`. -/
def queueIsFull (maxsize : Nat) (q : List α) : Bool :=
  decide (0 < maxsize) && decide (maxsize ≤ q.length)

/-- One call of `EpilogCallbackHandler._enqueue_event` after the session check
(callback_handler.py lines 138-148): `put_nowait` appends; on `QueueFull` the
oldest element (list head) is removed via `get_nowait` and the new event is
appended.  Total function: the Python code swallows every exception, so the
caller never sees an error. -/
def enqueueEvent (maxsize : Nat) (q : List α) (e : α) : List α :=
  if queueIsFull maxsize q then q.drop 1 ++ [e] else q ++ [e]

/-- `_enqueue_event` guard at callback_handler.py lines 125-126: if no session
has been started (`self.session_id` unset) the method returns immediately and
the queue is untouched. -/
def enqueueWithSession (sessionId : Option Nat) (maxsize : Nat)
    (q : List α) (e : α) : List α :=
  match sessionId with
  | none => q
  | some _ => enqueueEvent maxsize q e

theorem enqueueEvent_of_full {maxsize : Nat} {q : List α} (e : α)
    (h0 : 0 < maxsize) (hfull : maxsize ≤ q.length) :
    enqueueEvent maxsize q e = q.drop 1 ++ [e] := by
  simp [enqueueEvent, queueIsFull, h0, hfull]

theorem enqueueEvent_of_not_full {maxsize : Nat} {q : List α} (e : α)
    (hlt : q.length < maxsize) :
    enqueueEvent maxsize q e = q ++ [e] := by
  simp [enqueueEvent, queueIsFull, Nat.not_le.mpr hlt]

/-- Folding `enqueueEvent` over a list of arrivals keeps exactly the suffix
that fits in the capacity. -/
theorem foldl_enqueueEvent (K : Nat) (hK : 0 < K) :
    ∀ (evs q : List α), q.length ≤ K →
      evs.foldl (enqueueEvent K) q =
        (q ++ evs).drop (q.length + evs.length - K) := by
  intro evs
  induction evs with
  | nil =>
    intro q hq
    simp [Nat.sub_eq_zero_of_le hq]
  | cons e es ih =>
    intro q hq
    rcases Nat.lt_or_ge q.length K with hlt | hge
    · rw [List.foldl_cons, enqueueEvent_of_not_full e hlt,
        ih (q ++ [e]) (by simpa using hlt)]
      have h1 : (q ++ [e]) ++ es = q ++ e :: es := by simp
      have h2 : (q ++ [e]).length + es.length - K = q.length + (e :: es).length - K := by
        simp only [List.length_append, List.length_cons, List.length_nil]
        omega
      rw [h1, h2]
    · have hEq : q.length = K := Nat.le_antisymm hq hge
      have hq1 : 1 ≤ q.length := by omega
      rw [List.foldl_cons, enqueueEvent_of_full e hK hge,
        ih (q.drop 1 ++ [e]) (by simp [List.length_drop]; omega)]
      have hdrop1 : (q ++ e :: es).drop 1 = q.drop 1 ++ e :: es :=
        List.drop_append_of_le_length hq1
      have hlen : (q.drop 1 ++ [e]).length + es.length - K = es.length := by
        simp [List.length_drop]
        omega
      rw [hlen]
      have hgoal : q.length + (e :: es).length - K = es.length + 1 := by
        simp [List.length_cons]
        omega
      rw [hgoal]
      calc ((q.drop 1 ++ [e]) ++ es).drop es.length
          = (q.drop 1 ++ e :: es).drop es.length := by
            simp [List.append_assoc]
        _ = ((q ++ e :: es).drop 1).drop es.length := by rw [hdrop1]
        _ = (q ++ e :: es).drop (es.length + 1) := by
            rw [List.drop_drop, Nat.add_comm]

/-- C1: every sequence of `N > K` enqueues on an empty buffer of capacity
`K > 0` leaves exactly the last `K` enqueued events, in arrival order; the
final buffer has length exactly `K`; and each enqueue on a full buffer evicts
the oldest buffered event and appends the new one.  (`enqueueEvent` is a total
function, matching the source's guarantee that `_enqueue_event` never raises
to the caller.) -/
theorem c1_buffer_keeps_last_K {α : Type} (K : Nat) (evs q : List α) (e : α)
    (hK : 0 < K) (hN : K < evs.length) (hq : q.length = K) :
    evs.foldl (enqueueEvent K) [] = evs.drop (evs.length - K)
    ∧ (evs.foldl (enqueueEvent K) []).length = K
    ∧ enqueueEvent K q e = q.drop 1 ++ [e] := by
  have hmain : evs.foldl (enqueueEvent K) [] = evs.drop (evs.length - K) := by
    have := foldl_enqueueEvent K hK evs [] (by simp)
    simpa using this
  refine ⟨hmain, ?_, enqueueEvent_of_full e hK (le_of_eq hq.symm)⟩
  rw [hmain]
  simp [List.length_drop]
  omega

/-- Witness for C1: capacity 2, four arrivals `[10, 20, 30, 40]`, final buffer
`[30, 40]`. -/
theorem c1_buffer_keeps_last_K_witness :
    ([10, 20, 30, 40] : List Nat).foldl (enqueueEvent 2) [] = [30, 40]
    ∧ (([10, 20, 30, 40] : List Nat).foldl (enqueueEvent 2) []).length = 2
    ∧ enqueueEvent 2 ([7, 8] : List Nat) 9 = [8, 9] := by
  have h := c1_buffer_keeps_last_K (α := Nat) 2 [10, 20, 30, 40] [7, 8] 9
    (by decide) (by decide) (by decide)
  refine ⟨?_, h.2.1, h.2.2⟩
  rw [h.1]
  decide

/-- C10: with no session established (`self.session_id` unset), `_enqueue_event`
is a silent no-op — the queue is unchanged (hence nothing new can ever be
transmitted by the worker) and no error reaches the caller (the embedding is a
total function). -/
theorem c10_no_session_noop {α : Type} (maxsize : Nat) (q : List α) (e : α) :
    enqueueWithSession none maxsize q e = q := rfl

/-! ## Circuit breaker: `EpilogCallbackHandler._worker` / `_handle_failure`

callback_handler.py lines 57-61 initialise `failed_count = 0`,
`cooldown_until = 0.0`, `max_failures = 3`, `cooldown_period = 60.0`.
Each worker iteration (lines 82-100) dequeues an event, skips it without any
transport call while `time.time() < cooldown_until`, otherwise calls
`client.send_event`; success resets `failed_count` to 0, failure (or an
exception from the transport) runs `_handle_failure` (lines 106-114), which
increments `failed_count` and, once `failed_count >= max_failures`, sets
`cooldown_until = time.time() + cooldown_period`.  Time is modelled as `Nat`;
the two `time.time()` reads inside one iteration are modelled as a single
instant. -/

/-- Circuit breaker state (`failed_count`, `cooldown_until`). -/
structure BreakerState where
  failedCount : Nat
  cooldownUntil : Nat
  deriving DecidableEq, Repr

/-- `max_failures` (callback_handler.py line 60). -/
def maxFailures : Nat := 3

/-- `cooldown_period` in seconds (callback_handler.py line 61). -/
def cooldownPeriod : Nat := 60

/-- `_handle_failure` at time `t` (callback_handler.py lines 106-114). -/
def handleFailure (t : Nat) (s : BreakerState) : BreakerState :=
  let n := s.failedCount + 1
  { failedCount := n
    cooldownUntil :=
      if maxFailures ≤ n then t + cooldownPeriod else s.cooldownUntil }

/-- One worker iteration for a dequeued event at time `t`
(callback_handler.py lines 82-100).  `sendOk` is the result the transport
would report if called (`False` also covers an exception from
`send_event`, which takes the same `_handle_failure` path).  Returns the new
breaker state and whether a transport call was attempted. -/
def workerStep (t : Nat) (sendOk : Bool) (s : BreakerState) :
    BreakerState × Bool :=
  if t < s.cooldownUntil then
    (s, false)
  else if sendOk then
    ({ s with failedCount := 0 }, true)
  else
    (handleFailure t s, true)

/-- Worker state after processing a trace of (timestamp, transport-result)
pairs. -/
def runWorker (s : BreakerState) (evs : List (Nat × Bool)) : BreakerState :=
  evs.foldl (fun st p => (workerStep p.1 p.2 st).1) s

/-- C2: (i) a failing send that brings the consecutive-failure count to
exactly `max_failures` opens the breaker, recording the cooldown deadline
`t + cooldown_period`; (ii) a failing send strictly below the threshold does
not change the deadline; (iii) while open and before the deadline every
dequeued event is skipped — no transport call, state untouched; (iv) once the
deadline has elapsed the next dequeued event attempts a transport call
regardless of prior state; (v) a single successful call resets the
consecutive-failure counter to zero. -/
theorem c2_circuit_breaker (t : Nat) (r : Bool) (s : BreakerState) :
    (s.failedCount + 1 = maxFailures → s.cooldownUntil ≤ t →
      (workerStep t false s).1.cooldownUntil = t + cooldownPeriod)
    ∧ (s.failedCount + 1 < maxFailures → s.cooldownUntil ≤ t →
      (workerStep t false s).1.cooldownUntil = s.cooldownUntil)
    ∧ (t < s.cooldownUntil → workerStep t r s = (s, false))
    ∧ (s.cooldownUntil ≤ t → (workerStep t r s).2 = true)
    ∧ (s.cooldownUntil ≤ t → (workerStep t true s).1.failedCount = 0) := by
  have hnot : s.cooldownUntil ≤ t → ¬ t < s.cooldownUntil := fun h => Nat.not_lt.mpr h
  refine ⟨?_, ?_, ?_, ?_, ?_⟩
  · intro hth hcl
    simp [workerStep, hnot hcl, handleFailure, hth, Nat.le_of_eq hth.symm]
  · intro hth hcl
    have : ¬ maxFailures ≤ s.failedCount + 1 := by omega
    simp [workerStep, hnot hcl, handleFailure, this]
  · intro hopen
    simp [workerStep, hopen]
  · intro hcl
    cases r <;> simp [workerStep, hnot hcl]
  · intro hcl
    simp [workerStep, hnot hcl]

/-- Witness for C2, at concrete states: a third consecutive failure at time 5
opens the breaker until 65; a second failure leaves the deadline unchanged;
at time 2 with deadline 10 the event is skipped with no transport call; at
time 5 with deadline 3 a call is attempted; and a success resets the counter. -/
theorem c2_circuit_breaker_witness :
    (workerStep 5 false ⟨2, 3⟩).1.cooldownUntil = 65
    ∧ (workerStep 5 false ⟨1, 3⟩).1.cooldownUntil = 3
    ∧ workerStep 2 true ⟨3, 10⟩ = (⟨3, 10⟩, false)
    ∧ (workerStep 5 true ⟨1, 3⟩).2 = true
    ∧ (workerStep 5 true ⟨1, 3⟩).1.failedCount = 0 := by
  refine ⟨?_, ?_, ?_, ?_, ?_⟩
  · exact (c2_circuit_breaker 5 false ⟨2, 3⟩).1 (by decide) (by decide)
  · exact (c2_circuit_breaker 5 false ⟨1, 3⟩).2.1 (by decide) (by decide)
  · exact (c2_circuit_breaker 2 true ⟨3, 10⟩).2.2.1 (by decide)
  · exact (c2_circuit_breaker 5 true ⟨1, 3⟩).2.2.2.1 (by decide)
  · exact (c2_circuit_breaker 5 true ⟨1, 3⟩).2.2.2.2 (by decide)

/-! ## `flush` drain barrier: `EpilogCallbackHandler.flush`

callback_handler.py lines 152-156:
`if self.queue.empty(): return` then `await self.queue.join()`.
`asyncio.Queue` keeps an internal count of unfinished tasks: `put_nowait`
increments it, `task_done` decrements it, and `join()` resumes its caller
exactly when the count reaches zero.  The code calls `task_done` in exactly
two places, each once per successful `get`: the worker's `finally` block
(line 100) and the drop-oldest branch of `_enqueue_event` (line 144).
The state below tracks the buffered queue, the number of events dequeued by
the worker whose `task_done` is still pending (`inFlight`), and the queue's
own `unfinished` counter; the transitions are the operations the source
performs on the queue. -/

/-- Queue-coordination state of one handler instance. -/
structure BufferState where
  buffered : List Nat
  inFlight : Nat
  unfinished : Nat
  deriving DecidableEq, Repr

/-- The operations the source performs on the shared queue. -/
inductive BufferStep (K : Nat) : BufferState → BufferState → Prop
  /-- `_enqueue_event`, queue not full: `put_nowait` appends and increments
  the unfinished-task counter. -/
  | enqueue (s : BufferState) (e : Nat) (h : queueIsFull K s.buffered = false) :
      BufferStep K s
        { s with buffered := s.buffered ++ [e], unfinished := s.unfinished + 1 }
  /-- `_enqueue_event`, queue full: `get_nowait` evicts the oldest event,
  `task_done` retires it, `put_nowait` appends the new one — the unfinished
  counter is decremented once and incremented once. -/
  | enqueueFull (s : BufferState) (e : Nat) (h : queueIsFull K s.buffered = true) :
      BufferStep K s
        { s with buffered := s.buffered.drop 1 ++ [e] }
  /-- Worker `await self.queue.get()`: removes the head; the task stays
  unfinished until the worker's `finally` block runs. -/
  | workerGet (s : BufferState) (e : Nat) (rest : List Nat)
      (h : s.buffered = e :: rest) :
      BufferStep K s
        { s with buffered := rest, inFlight := s.inFlight + 1 }
  /-- Worker `finally: self.queue.task_done()` after processing the dequeued
  event (sent, failed, or skipped by the open breaker). -/
  | workerDone (s : BufferState) (h : 0 < s.inFlight) (h2 : 0 < s.unfinished) :
      BufferStep K s
        { s with inFlight := s.inFlight - 1, unfinished := s.unfinished - 1 }

/-- States reachable from a handler's initial state (empty queue, no pending
tasks). -/
inductive BufferReach (K : Nat) : BufferState → Prop
  | init : BufferReach K ⟨[], 0, 0⟩
  | step {s s' : BufferState} (h : BufferReach K s) (hs : BufferStep K s s') :
      BufferReach K s'

/-- The queue's unfinished-task counter always equals buffered events plus
dequeued-but-not-yet-retired events; in particular it dominates the queue
length. -/
theorem bufferReach_invariant {K : Nat} {s : BufferState}
    (h : BufferReach K s) :
    s.unfinished = s.buffered.length + s.inFlight := by
  induction h with
  | init => rfl
  | step _ hs ih =>
    rename_i s s' h
    cases hs with
    | enqueue e hfull =>
      simp only [List.length_append, List.length_cons, List.length_nil]
      omega
    | enqueueFull e hfull =>
      have hpos : 0 < s.buffered.length := by
        by_contra hlen
        have hnil : s.buffered = [] := by
          cases hb : s.buffered with
          | nil => rfl
          | cons a l => rw [hb] at hlen; simp at hlen
        rw [hnil] at hfull
        simp [queueIsFull] at hfull
        omega
      simp only [List.length_append, List.length_drop, List.length_cons,
        List.length_nil]
      omega
    | workerGet e rest hbuf =>
      rw [ih, hbuf]
      simp only [List.length_cons]
      omega
    | workerDone hin hun =>
      simp only
      omega

/-- The condition under which `flush` resumes its caller having called at
state `s0` and resuming at state `s1`: either the queue was empty at call
time (`if self.queue.empty(): return`, with no suspension point, so the state
is unchanged), or the worker/producers took further steps and `queue.join()`
completed, which `asyncio` does exactly when the unfinished-task counter is
zero. -/
def FlushReturn (K : Nat) (s0 s1 : BufferState) : Prop :=
  (s0.buffered = [] ∧ s1 = s0)
  ∨ (Relation.ReflTransGen (BufferStep K) s0 s1 ∧ s1.unfinished = 0)

/-- Multi-step reachability preserves reachability from the initial state. -/
theorem bufferReach_of_reflTransGen {K : Nat} {s0 s1 : BufferState}
    (h0 : BufferReach K s0)
    (h : Relation.ReflTransGen (BufferStep K) s0 s1) : BufferReach K s1 := by
  induction h with
  | refl => exact h0
  | tail _ hstep ih => exact BufferReach.step ih hstep

/-- C6: whenever `flush` returns, the buffered queue is empty — every event
that was buffered has been dequeued — and, unless it returned through the
empty-queue fast path, the unfinished-task counter is zero, i.e. every
dequeued event has also been fully processed (its `task_done` has run).
`flush` therefore cannot return while events remain in the buffer. -/
theorem c6_flush_drains (K : Nat) (s0 s1 : BufferState)
    (h0 : BufferReach K s0) (hret : FlushReturn K s0 s1) :
    s1.buffered = [] ∧ (s0.buffered ≠ [] → s1.inFlight = 0 ∧ s1.unfinished = 0) := by
  cases hret with
  | inl h =>
    refine ⟨h.2 ▸ h.1, fun hne => absurd h.1 hne⟩
  | inr h =>
    have h1 : BufferReach K s1 := bufferReach_of_reflTransGen h0 h.1
    have hinv := bufferReach_invariant h1
    rw [h.2] at hinv
    have hbuf : s1.buffered = [] := by
      cases hb : s1.buffered with
      | nil => rfl
      | cons a l =>
        rw [hb] at hinv
        simp only [List.length_cons] at hinv
        omega
    refine ⟨hbuf, fun _ => ⟨?_, h.2⟩⟩
    rw [hbuf] at hinv
    simpa using hinv.symm

/-- Witness for C6: enqueue one event into an empty capacity-2 buffer, let the
worker dequeue and retire it; `join()` then completes and `flush` returns with
the queue drained and no task unfinished. -/
theorem c6_flush_drains_witness :
    (⟨[], 0, 0⟩ : BufferState).buffered = []
    ∧ ((⟨[7], 0, 1⟩ : BufferState).buffered ≠ [] →
        (⟨[], 0, 0⟩ : BufferState).inFlight = 0
        ∧ (⟨[], 0, 0⟩ : BufferState).unfinished = 0) := by
  have hreach : BufferReach 2 ⟨[7], 0, 1⟩ :=
    BufferReach.step BufferReach.init
      (by
        have h := BufferStep.enqueue (K := 2) ⟨[], 0, 0⟩ 7 (by decide)
        simpa using h)
  have hsteps :
      Relation.ReflTransGen (BufferStep 2) ⟨[7], 0, 1⟩ ⟨[], 0, 0⟩ := by
    have st1 : BufferStep 2 ⟨[7], 0, 1⟩ ⟨[], 1, 1⟩ := by
      have h := BufferStep.workerGet (K := 2) ⟨[7], 0, 1⟩ 7 [] rfl
      simpa using h
    have st2 : BufferStep 2 ⟨[], 1, 1⟩ ⟨[], 0, 0⟩ := by
      have h := BufferStep.workerDone (K := 2) ⟨[], 1, 1⟩ (by decide) (by decide)
      simpa using h
    exact Relation.ReflTransGen.head st1 (Relation.ReflTransGen.single st2)
  exact c6_flush_drains 2 ⟨[7], 0, 1⟩ ⟨[], 0, 0⟩ hreach (Or.inr ⟨hsteps, rfl⟩)

/-! ## `PatchApplier.apply_patch` (src/epilog/api/services/patch_applier.py)

Paths are character lists.  `os.path.join(project_root, file_path)` follows
POSIX `posixpath.join`: an absolute second component replaces the first;
otherwise a separator is inserted unless the first component is empty or
already ends in one.  The filesystem is modelled as the list of paths for
which `os.path.exists` is true.  The body's observable filesystem actions
(writing the named temporary diff file, invoking the external `patch` utility
on the resolved target, unlinking the temporary file) are recorded as an
effect trace, one effect per source line, so the temporary-file lifecycle is
derived from the control flow rather than assumed. -/

/-- `os.path.join(a, b)` for exactly two POSIX components
(patch_applier.py line 12). -/
def posixJoin (root path : List Char) : List Char :=
  if path.head? = some '/' then path
  else if root = [] ∨ root.getLast? = some '/' then root ++ path
  else root ++ '/' :: path

/-- Result of `subprocess.run(["patch", "-u", full_path, "-i", tmp_path])`
(patch_applier.py lines 25-29): clean exit, non-zero exit, or an exception
raised inside the `try` block. -/
inductive PatchUtilOutcome
  | exitZero
  | exitNonzero
  | raisesExc
  deriving DecidableEq, Repr

/-- Observable filesystem actions of `apply_patch`. -/
inductive FsEffect
  | writeTmp
  | unlinkTmp
  | invokePatch (target : List Char)
  deriving DecidableEq, Repr

/-- `PatchApplier.apply_patch` (patch_applier.py lines 7-43): resolve the
path, return `False` at once if it does not exist, otherwise write the diff
to a named temporary file, run the `patch` utility against the resolved
target and unlink the temporary file on each exit path (line 32 on success,
line 37 on non-zero exit, lines 41-42 — guarded by an existence check — in
the exception handler).  Returns the effect trace and the boolean result. -/
def apply_patch (fs : List (List Char)) (root fp : List Char)
    (util : PatchUtilOutcome) : List FsEffect × Bool :=
  let full_path := posixJoin root fp
  if fs.contains full_path = false then
    ([], false)
  else
    match util with
    | .exitZero =>
        ([.writeTmp, .invokePatch full_path, .unlinkTmp], true)
    | .exitNonzero =>
        ([.writeTmp, .invokePatch full_path, .unlinkTmp], false)
    | .raisesExc =>
        ([.writeTmp, .invokePatch full_path, .unlinkTmp], false)

/-- Whether the temporary diff file is still on disk after a trace of
effects. -/
def tmpRemainsAfter (tr : List FsEffect) : Bool :=
  tr.foldl
    (fun onDisk eff =>
      match eff with
      | .writeTmp => true
      | .unlinkTmp => false
      | .invokePatch _ => onDisk)
    false

/-- `full_path` is inside the tree rooted at `root`: it is the root itself or
has `root ++ "/"` as a prefix. -/
def pathUnder (root p : List Char) : Bool :=
  p == root || (root ++ ['/']).isPrefixOf p

/-- C5 fails as stated: with project root `/proj` and `file_path`
`/etc/passwd` (absolute, existing, outside the root), `os.path.join` discards
the root, the existence check passes, the temporary diff file is written and
the external utility is invoked against `/etc/passwd` — a patch attempt
against a file outside the sanctioned project tree, returning `True`. -/
theorem c5_counterexample :
    (apply_patch ["/etc/passwd".data] "/proj".data "/etc/passwd".data
        PatchUtilOutcome.exitZero).2 = true
    ∧ FsEffect.writeTmp ∈ (apply_patch ["/etc/passwd".data] "/proj".data
        "/etc/passwd".data PatchUtilOutcome.exitZero).1
    ∧ FsEffect.invokePatch "/etc/passwd".data ∈
        (apply_patch ["/etc/passwd".data] "/proj".data "/etc/passwd".data
          PatchUtilOutcome.exitZero).1
    ∧ pathUnder "/proj".data "/etc/passwd".data = false := by
  decide

/-- C5 (amended): when the resolved path does not exist on the filesystem,
`apply_patch` returns `False` without raising, without writing the temporary
resource and without invoking the utility; but resolution does not confine the
target to the project root — an absolute `file_path` replaces the root
entirely, so when such a file exists the patch attempt proceeds outside the
sanctioned tree. -/
theorem c5_missing_file_fails_closed (fs : List (List Char))
    (root fp : List Char) (util : PatchUtilOutcome)
    (h : fs.contains (posixJoin root fp) = false) :
    apply_patch fs root fp util = ([], false)
    ∧ (fp.head? = some '/' → posixJoin root fp = fp) := by
  constructor
  · have h' : posixJoin root fp ∉ fs := by simpa using h
    simp [apply_patch, h, h']
  · intro habs
    simp [posixJoin, habs]

/-- Witness for C5 (amended): on an empty filesystem the call fails closed
with no effects, and the absolute path `/a` resolves to itself, ignoring the
root. -/
theorem c5_missing_file_fails_closed_witness :
    apply_patch ([] : List (List Char)) "/proj".data "/a".data
        PatchUtilOutcome.exitZero = ([], false)
    ∧ ("/a".data.head? = some '/' → posixJoin "/proj".data "/a".data = "/a".data) := by
  exact c5_missing_file_fails_closed [] "/proj".data "/a".data
    PatchUtilOutcome.exitZero (by decide)

/-- C9: on every exit path of `apply_patch` — external utility success,
non-zero exit, or an exception inside the `try` block — the temporary diff
file does not remain on disk when the call returns (and the early-return path
never writes it at all). -/
theorem c9_tmp_always_removed (fs : List (List Char)) (root fp : List Char)
    (util : PatchUtilOutcome) :
    tmpRemainsAfter (apply_patch fs root fp util).1 = false := by
  by_cases hmem : posixJoin root fp ∈ fs
  · have h : fs.contains (posixJoin root fp) = true := by simpa using hmem
    cases util <;> simp [apply_patch, h, hmem, tmpRemainsAfter]
  · have h : fs.contains (posixJoin root fp) = false := by simpa using hmem
    cases util <;> simp [apply_patch, h, hmem, tmpRemainsAfter]

/-! ## ContextWindowBuilder: `DiagnosisEngine.run_diagnosis`

engine.py lines 22-38: `db.get(TraceEvent, event_id)` fetches the target by
primary key and `run_diagnosis` raises `ValueError` (the NotFound condition)
when it is absent; otherwise a query selects the events with the same
`session_id` and `id < target.id`, ordered by `id` descending, limited to
`window_size` (default 5), and the result is reversed.  The store is a list
of rows; `ORDER BY id DESC` is modelled by insertion sort on descending id
(ids are unique in the store, so the descending order is unambiguous). -/

/-- The columns of a `TraceEvent` row the window query touches. -/
structure TraceEventRow where
  id : Nat
  sessionId : Nat
  deriving DecidableEq, Repr

/-- Insertion step for descending-id order. -/
def insertDesc (e : TraceEventRow) : List TraceEventRow → List TraceEventRow
  | [] => [e]
  | x :: xs => if x.id ≤ e.id then e :: x :: xs else x :: insertDesc e xs

/-- `ORDER BY id DESC` over a list of rows. -/
def sortDescById (l : List TraceEventRow) : List TraceEventRow :=
  l.foldr insertDesc []

/-- `db.get(TraceEvent, event_id)` (engine.py line 23). -/
def dbGetEvent (store : List TraceEventRow) (eid : Nat) : Option TraceEventRow :=
  store.find? (fun e => e.id == eid)

/-- The rows the window query's WHERE clause selects (engine.py lines 32-33):
same session, id strictly below the target's. -/
def priorEvents (store : List TraceEventRow) (tgt : TraceEventRow) :
    List TraceEventRow :=
  store.filter (fun e => e.sessionId == tgt.sessionId && decide (e.id < tgt.id))

/-- `run_diagnosis` raises `ValueError(f"Event {event_id} not found")`. -/
inductive DbError
  | notFound
  deriving DecidableEq, Repr

/-- The context-window computation of `run_diagnosis` (engine.py lines 22-38):
fetch the target (NotFound when absent), select the prior events of the same
session ordered by id descending, truncate to `window_size`, and reverse into
ascending order. -/
def contextWindow (store : List TraceEventRow) (eid windowSize : Nat) :
    Except DbError (List TraceEventRow) :=
  match dbGetEvent store eid with
  | none => .error .notFound
  | some tgt =>
      .ok (((sortDescById (priorEvents store tgt)).take windowSize).reverse)

theorem insertDesc_perm (e : TraceEventRow) (l : List TraceEventRow) :
    List.Perm (insertDesc e l) (e :: l) := by
  induction l with
  | nil => simp [insertDesc]
  | cons x xs ih =>
    by_cases hle : x.id ≤ e.id
    · simp [insertDesc, hle]
    · simp only [insertDesc, if_neg hle]
      exact (ih.cons x).trans (List.Perm.swap e x xs)

theorem sortDescById_perm (l : List TraceEventRow) : List.Perm (sortDescById l) l := by
  induction l with
  | nil => rfl
  | cons x xs ih =>
    have : sortDescById (x :: xs) = insertDesc x (sortDescById xs) := rfl
    rw [this]
    exact (insertDesc_perm x (sortDescById xs)).trans (ih.cons x)

theorem pairwise_insertDesc {e : TraceEventRow} {l : List TraceEventRow}
    (h : l.Pairwise (fun a b => b.id ≤ a.id)) :
    (insertDesc e l).Pairwise (fun a b => b.id ≤ a.id) := by
  induction l with
  | nil => simp [insertDesc]
  | cons x xs ih =>
    rw [List.pairwise_cons] at h
    by_cases hle : x.id ≤ e.id
    · simp only [insertDesc, if_pos hle]
      refine List.Pairwise.cons ?_ (List.pairwise_cons.mpr h)
      intro y hy
      rcases List.mem_cons.mp hy with hyx | hyxs
      · exact hyx ▸ hle
      · exact le_trans (h.1 y hyxs) hle
    · simp only [insertDesc, if_neg hle]
      refine List.Pairwise.cons ?_ (ih h.2)
      intro y hy
      rcases List.mem_cons.mp ((insertDesc_perm e xs).mem_iff.mp hy) with hye | hyxs
      · exact hye ▸ Nat.le_of_lt (Nat.lt_of_not_le hle)
      · exact h.1 y hyxs

theorem pairwise_sortDescById (l : List TraceEventRow) :
    (sortDescById l).Pairwise (fun a b => b.id ≤ a.id) := by
  induction l with
  | nil => simp [sortDescById]
  | cons x xs ih => exact pairwise_insertDesc ih

/-- C4: assuming the store's ids are unique (the spec's store invariant),
(i) an unknown target identity yields the NotFound condition; (ii) a known
target yields a window: its length is `window_size` capped by the number of
prior same-session events (so possibly zero, never an error), it is strictly
ascending in id, every element belongs to the target's session with id below
the target's, and when at most `window_size` prior events exist the window
consists of exactly those events. -/
theorem c4_context_window (store : List TraceEventRow) (eid n : Nat)
    (hnodup : (store.map (fun e => e.id)).Nodup) :
    (dbGetEvent store eid = none →
      contextWindow store eid n = .error .notFound)
    ∧ ∀ tgt, dbGetEvent store eid = some tgt →
        ∃ w, contextWindow store eid n = .ok w
          ∧ w.length = min n (priorEvents store tgt).length
          ∧ w.Pairwise (fun a b => a.id < b.id)
          ∧ (∀ e ∈ w, e.sessionId = tgt.sessionId ∧ e.id < tgt.id)
          ∧ ((priorEvents store tgt).length ≤ n →
              List.Perm w (priorEvents store tgt)) := by
  constructor
  · intro hnone
    simp [contextWindow, hnone]
  · intro tgt htgt
    refine ⟨((sortDescById (priorEvents store tgt)).take n).reverse,
      by simp [contextWindow, htgt], ?_, ?_, ?_, ?_⟩
    · rw [List.length_reverse, List.length_take,
        (sortDescById_perm (priorEvents store tgt)).length_eq]
    · have hprior_nodup : ((priorEvents store tgt).map (fun e => e.id)).Nodup :=
        ((List.filter_sublist store).map (fun e => e.id)).nodup hnodup
      have hsort_nodup :
          ((sortDescById (priorEvents store tgt)).map (fun e => e.id)).Nodup :=
        (((sortDescById_perm (priorEvents store tgt)).map
          (fun e => e.id)).nodup_iff).mpr hprior_nodup
      have hne : (sortDescById (priorEvents store tgt)).Pairwise
          (fun a b => a.id ≠ b.id) := by
        rw [List.Nodup, List.pairwise_map] at hsort_nodup
        exact hsort_nodup
      have hstrict : (sortDescById (priorEvents store tgt)).Pairwise
          (fun a b => b.id < a.id) :=
        ((pairwise_sortDescById (priorEvents store tgt)).and hne).imp
          (fun hab => Nat.lt_of_le_of_ne hab.1 (fun hba => hab.2 hba.symm))
      have htake : ((sortDescById (priorEvents store tgt)).take n).Pairwise
          (fun a b => b.id < a.id) :=
        hstrict.sublist (List.take_sublist n _)
      exact (List.pairwise_reverse).mpr htake
    · intro e he
      have he' : e ∈ priorEvents store tgt := by
        have h1 : e ∈ (sortDescById (priorEvents store tgt)).take n :=
          List.mem_reverse.mp he
        have h2 : e ∈ sortDescById (priorEvents store tgt) :=
          (List.take_sublist n _).mem h1
        exact (sortDescById_perm (priorEvents store tgt)).mem_iff.mp h2
      have := List.mem_filter.mp he'
      constructor
      · have hsess := this.2
        simp only [Bool.and_eq_true, beq_iff_eq, decide_eq_true_eq] at hsess
        exact hsess.1
      · have hid := this.2
        simp only [Bool.and_eq_true, beq_iff_eq, decide_eq_true_eq] at hid
        exact hid.2
    · intro hlen
      have hlen' : (sortDescById (priorEvents store tgt)).length ≤ n := by
        rw [(sortDescById_perm (priorEvents store tgt)).length_eq]
        exact hlen
      rw [List.take_of_length_le hlen']
      exact (List.reverse_perm _).trans (sortDescById_perm _)

/-- Witness for C4: store with session 1 holding ids 1, 2, 5 and session 2
holding id 3; the target id 5 has exactly two prior events in its session and
window size 5 returns exactly those two, ascending; the unknown id 9 is
NotFound. -/
theorem c4_context_window_witness :
    contextWindow
      [⟨1, 1⟩, ⟨2, 1⟩, ⟨3, 2⟩, ⟨5, 1⟩] 5 5 = .ok [⟨1, 1⟩, ⟨2, 1⟩]
    ∧ contextWindow [⟨1, 1⟩, ⟨2, 1⟩, ⟨3, 2⟩, ⟨5, 1⟩] 9 5 = .error .notFound := by
  have h := c4_context_window [⟨1, 1⟩, ⟨2, 1⟩, ⟨3, 2⟩, ⟨5, 1⟩] 9 5 (by decide)
  exact ⟨by rfl, h.1 (by rfl)⟩

/-! ## DiagnosisOracleAdapter: `GeminiProvider.diagnose`

gemini_provider.py lines 90-120.  Oracle responses are character lists.
`str.split(sep)` for a non-empty separator is modelled by `pySplit`
(greedy leftmost scan), `sep in text` by `pyContains`, `str.strip()` by
`pyStrip`.  `json.loads` is modelled by a recursive-descent parser
(`jsonLoads`) over the JSON subset this development needs: strings with the
common escapes, integers, booleans, null, arrays and objects; Python's error
categories are mirrored as short error descriptions.
`DiagnosisReport(**data)` (pydantic validation of provider.py lines 5-9) is
modelled by `reportOfJson`: the argument must be a mapping, the four fields
must be present, string fields must be JSON strings, the boolean field a JSON
boolean. -/

/-- The backtick character. -/
def tick : Char := '\x60'

/-- Prefix test on character lists. -/
def listPre : List Char → List Char → Bool
  | [], _ => true
  | _ :: _, [] => false
  | p :: ps, c :: cs => p == c && listPre ps cs

/-- Index of the first occurrence of `sep` in `s`, scanning left to right
(the scan `str.find` performs). -/
def firstOcc (sep : List Char) : List Char → Option Nat
  | [] => if sep.isEmpty then some 0 else none
  | c :: cs =>
      if listPre sep (c :: cs) then some 0
      else (firstOcc sep cs).map (· + 1)

/-- Python `sep in text`. -/
def pyContains (s sep : List Char) : Bool := (firstOcc sep s).isSome

/-- Fuel-driven splitter; `fuel ≥ s.length + 1` always suffices for a
non-empty separator because each step consumes at least one character. -/
def pySplitF : Nat → List Char → List Char → List (List Char)
  | 0, _, s => [s]
  | Nat.succ fuel, sep, s =>
      match firstOcc sep s with
      | none => [s]
      | some i => s.take i :: pySplitF fuel sep (s.drop (i + sep.length))

/-- Python `s.split(sep)` for non-empty `sep`. -/
def pySplit (sep s : List Char) : List (List Char) :=
  pySplitF (s.length + 1) sep s

/-- The characters `str.strip()` removes (ASCII whitespace). -/
def isPySpace (c : Char) : Bool :=
  c == ' ' || c == '\t' || c == '\n' || c == '\r' || c == '\x0b' || c == '\x0c'

/-- Python `s.strip()`. -/
def pyStrip (s : List Char) : List Char :=
  (((s.dropWhile isPySpace).reverse).dropWhile isPySpace).reverse

/-- The separator `"```json"`. -/
def sepTicksJson : List Char := [tick, tick, tick, 'j', 's', 'o', 'n']

/-- The separator `"```"`. -/
def sepTicks : List Char := [tick, tick, tick]

/-- The markdown-fence cleanup of `GeminiProvider.diagnose`
(gemini_provider.py lines 106-110): if `"```json"` occurs, keep what stands
between that tag and the next `"```"`, stripped; otherwise if `"```"` occurs,
keep what follows its first occurrence (up to the next occurrence, since
`split` cuts there), stripped; otherwise the text is unchanged. -/
def cleanResponse (text : List Char) : List Char :=
  if pyContains text sepTicksJson then
    pyStrip ((pySplit sepTicks ((pySplit sepTicksJson text).getD 1 [])).getD 0 [])
  else if pyContains text sepTicks then
    pyStrip ((pySplit sepTicks text).getD 1 [])
  else text

/-- JSON values (`json.loads` output). -/
inductive Json where
  | jnull
  | jbool (b : Bool)
  | jnum (n : Int)
  | jstr (s : List Char)
  | jarr (elems : List Json)
  | jobj (fields : List (List Char × Json))

/-- JSON whitespace. -/
def isJsonWs (c : Char) : Bool :=
  c == ' ' || c == '\t' || c == '\n' || c == '\r'

/-- Body of a JSON string after the opening quote; handles the common
escapes. -/
def parseStringRest (acc : List Char) : List Char →
    Except (List Char) (List Char × List Char)
  | [] => .error "Unterminated string".data
  | c :: rest =>
    if c == '"' then .ok (acc.reverse, rest)
    else if c == '\\' then
      match rest with
      | [] => .error "Unterminated string".data
      | e :: rest2 =>
        if e == '"' then parseStringRest ('"' :: acc) rest2
        else if e == '\\' then parseStringRest ('\\' :: acc) rest2
        else if e == '/' then parseStringRest ('/' :: acc) rest2
        else if e == 'n' then parseStringRest ('\n' :: acc) rest2
        else if e == 't' then parseStringRest ('\t' :: acc) rest2
        else if e == 'r' then parseStringRest ('\r' :: acc) rest2
        else .error "Invalid escape".data
    else parseStringRest (c :: acc) rest

/-- Digits to a natural number. -/
def digitsToNat (ds : List Char) : Nat :=
  ds.foldl (fun n c => 10 * n + (c.toNat - 48)) 0

mutual

/-- JSON value parser (recursive descent, fuel-driven; `s.length + 1` fuel
always suffices since every nesting level consumes a character). -/
def parseValue : Nat → List Char → Except (List Char) (Json × List Char)
  | 0, _ => .error "Expecting value".data
  | Nat.succ fuel, s =>
    match s.dropWhile isJsonWs with
    | [] => .error "Expecting value".data
    | c :: rest =>
      if c == '"' then
        match parseStringRest [] rest with
        | .error e => .error e
        | .ok (str, r) => .ok (.jstr str, r)
      else if c == '\x7b' then
        match rest.dropWhile isJsonWs with
        | '\x7d' :: r2 => .ok (.jobj [], r2)
        | _ => match parseFields fuel rest with
               | .error e => .error e
               | .ok (fs, r2) => .ok (.jobj fs, r2)
      else if c == '[' then
        match rest.dropWhile isJsonWs with
        | ']' :: r2 => .ok (.jarr [], r2)
        | _ => match parseElems fuel rest with
               | .error e => .error e
               | .ok (xs, r2) => .ok (.jarr xs, r2)
      else if c == 't' then
        match rest with
        | 'r' :: 'u' :: 'e' :: r2 => .ok (.jbool true, r2)
        | _ => .error "Expecting value".data
      else if c == 'f' then
        match rest with
        | 'a' :: 'l' :: 's' :: 'e' :: r2 => .ok (.jbool false, r2)
        | _ => .error "Expecting value".data
      else if c == 'n' then
        match rest with
        | 'u' :: 'l' :: 'l' :: r2 => .ok (.jnull, r2)
        | _ => .error "Expecting value".data
      else if c == '-' then
        match rest.span (fun d => d.isDigit) with
        | ([], _) => .error "Expecting value".data
        | (ds, r2) => .ok (.jnum (-(digitsToNat ds : Int)), r2)
      else if c.isDigit then
        match (c :: rest).span (fun d => d.isDigit) with
        | (ds, r2) => .ok (.jnum (digitsToNat ds : Int), r2)
      else .error "Expecting value".data

/-- Comma-separated array elements, expecting a closing bracket. -/
def parseElems : Nat → List Char → Except (List Char) (List Json × List Char)
  | 0, _ => .error "Expecting value".data
  | Nat.succ fuel, s =>
    match parseValue fuel s with
    | .error e => .error e
    | .ok (v, r) =>
      match r.dropWhile isJsonWs with
      | ',' :: r2 =>
          match parseElems fuel r2 with
          | .error e => .error e
          | .ok (xs, r3) => .ok (v :: xs, r3)
      | ']' :: r2 => .ok ([v], r2)
      | _ => .error "Expecting comma delimiter".data

/-- Comma-separated `"key": value` members, expecting a closing brace. -/
def parseFields : Nat → List Char →
    Except (List Char) (List (List Char × Json) × List Char)
  | 0, _ => .error "Expecting value".data
  | Nat.succ fuel, s =>
    match s.dropWhile isJsonWs with
    | '"' :: r =>
      match parseStringRest [] r with
      | .error e => .error e
      | .ok (key, r1) =>
        match r1.dropWhile isJsonWs with
        | ':' :: r2 =>
          match parseValue fuel r2 with
          | .error e => .error e
          | .ok (v, r3) =>
            match r3.dropWhile isJsonWs with
            | ',' :: r4 =>
                match parseFields fuel r4 with
                | .error e => .error e
                | .ok (fs, r5) => .ok ((key, v) :: fs, r5)
            | '\x7d' :: r4 => .ok ([(key, v)], r4)
            | _ => .error "Expecting comma delimiter".data
        | _ => .error "Expecting colon delimiter".data
    | _ => .error "Expecting property name".data

end

/-- The JSON-whitespace-stripped core of an input.  Python's `json.loads`
skips leading JSON whitespace before parsing and accepts only JSON whitespace
after the value, so its behaviour on `s` is its behaviour on this core. -/
def jsonCore (s : List Char) : List Char :=
  (((s.dropWhile isJsonWs).reverse).dropWhile isJsonWs).reverse

/-- `json.loads`: a single JSON value with only whitespace around it.
Parsing runs on the stripped core (with always-sufficient fuel), and any
non-whitespace remainder is the Extra-data error. -/
def jsonLoads (s : List Char) : Except (List Char) Json :=
  match parseValue ((jsonCore s).length + 1) (jsonCore s) with
  | .error e => .error e
  | .ok (v, rest) =>
      if (rest.dropWhile isJsonWs).isEmpty then .ok v
      else .error "Extra data".data

/-! ### The parser consumes a well-delimited prefix

A successful parse consumes a non-empty prefix of its input ending in a
non-strippable character (a closing quote, bracket or brace, a digit, or the
last letter of a literal), and leaves the untouched remainder.  This is what
makes `json.loads` insensitive to surrounding `str.strip()`-able whitespace:
the stripped core of a successfully parsed text is the text's own core. -/

/-- The parse consumed a non-empty prefix of `s` ending in a character that
`str.strip()` would not remove, leaving exactly `r`. -/
def Consumes (s r : List Char) : Prop :=
  ∃ pre d, s = pre ++ d :: r ∧ isPySpace d = false

theorem consumes_cons (c : Char) {s r : List Char} (h : Consumes s r) :
    Consumes (c :: s) r := by
  obtain ⟨p, d, h1, h2⟩ := h
  exact ⟨c :: p, d, by rw [h1]; rfl, h2⟩

theorem consumes_prepend (x : List Char) {s r : List Char} (h : Consumes s r) :
    Consumes (x ++ s) r := by
  obtain ⟨p, d, h1, h2⟩ := h
  exact ⟨x ++ p, d, by rw [h1, List.append_assoc], h2⟩

theorem consumes_trans {s r r2 : List Char} (h1 : Consumes s r)
    (h2 : Consumes r r2) : Consumes s r2 := by
  obtain ⟨p, d, hp, hd⟩ := h1
  obtain ⟨q, e, hq, he⟩ := h2
  refine ⟨p ++ d :: q, e, ?_, he⟩
  rw [hp, hq]
  simp

/-- Consumption of a delimiter reached after skipping whitespace. -/
theorem consumes_head {r r2 : List Char} {e : Char}
    (hr : r.dropWhile isJsonWs = e :: r2) (he : isPySpace e = false) :
    Consumes r r2 :=
  ⟨r.takeWhile isJsonWs, e,
    by rw [← hr, List.takeWhile_append_dropWhile], he⟩

theorem consumes_delim {s r r2 : List Char} {e : Char} (h : Consumes s r)
    (hr : r.dropWhile isJsonWs = e :: r2) (he : isPySpace e = false) :
    Consumes s r2 :=
  consumes_trans h (consumes_head hr he)

theorem consumes_of_dropWhile {p : Char → Bool} {s s1 r : List Char}
    (hs1 : s.dropWhile p = s1) (h : Consumes s1 r) : Consumes s r := by
  have hsp : s = s.takeWhile p ++ s1 := by
    rw [← hs1, List.takeWhile_append_dropWhile]
  rw [hsp]
  exact consumes_prepend _ h

theorem isPySpace_of_isDigit {c : Char} (h : c.isDigit = true) :
    isPySpace c = false := by
  cases hb : isPySpace c with
  | false => rfl
  | true =>
    rw [isPySpace] at hb
    simp only [Bool.or_eq_true, beq_iff_eq] at hb
    rcases hb with ((((rfl | rfl) | rfl) | rfl) | rfl) | rfl <;> simp at h

/-- Consumption by a digit run produced by `span`. -/
theorem consumes_span {s0 r2 ds : List Char}
    (hsp : s0.span (fun d => d.isDigit) = (ds, r2)) (hne : ds ≠ []) :
    Consumes s0 r2 := by
  rw [List.span_eq_take_drop] at hsp
  have htw : s0.takeWhile (fun d => d.isDigit) = ds := (Prod.mk.injEq _ _ _ _ ▸ hsp).1
  have hdw : s0.dropWhile (fun d => d.isDigit) = r2 := (Prod.mk.injEq _ _ _ _ ▸ hsp).2
  have hs0 : s0 = ds ++ r2 := by
    rw [← htw, ← hdw, List.takeWhile_append_dropWhile]
  have hlast := List.dropLast_append_getLast hne
  refine ⟨ds.dropLast, ds.getLast hne, ?_, ?_⟩
  · rw [hs0]
    calc ds ++ r2 = (ds.dropLast ++ [ds.getLast hne]) ++ r2 := by rw [hlast]
      _ = ds.dropLast ++ ds.getLast hne :: r2 := by simp
  · have hmem : ds.getLast hne ∈ s0.takeWhile (fun d => d.isDigit) := by
      rw [htw]
      exact List.getLast_mem hne
    exact isPySpace_of_isDigit (List.mem_takeWhile_imp hmem)

/-- A successful string-body parse consumes through the closing quote. -/
theorem parseStringRest_consumes :
    ∀ (n : Nat) (s : List Char), s.length ≤ n → ∀ (acc out r : List Char),
      parseStringRest acc s = .ok (out, r) → Consumes s r := by
  intro n
  induction n with
  | zero =>
    intro s hs acc out r h
    have hnil : s = [] := List.eq_nil_of_length_eq_zero (Nat.le_zero.mp hs)
    rw [hnil] at h
    simp [parseStringRest] at h
  | succ n ih =>
    intro s hs acc out r h
    rw [parseStringRest.eq_def] at h
    split at h
    · simp at h
    · rename_i c rest
      split at h
      · rename_i hq
        simp only [Except.ok.injEq, Prod.mk.injEq] at h
        have hc : c = '"' := by simpa using hq
        refine ⟨[], c, ?_, by rw [hc]; decide⟩
        rw [h.2]
        rfl
      · rename_i hq
        split at h
        · rename_i hb
          split at h
          · simp at h
          · rename_i e rest2
            have hlen : rest2.length ≤ n := by
              simp only [List.length_cons] at hs
              omega
            repeat' split at h
            all_goals
              first
              | exact consumes_cons c (consumes_cons e (ih rest2 hlen _ _ _ h))
              | simp at h
        · rename_i hb
          have hlen : rest.length ≤ n := by
            simp only [List.length_cons] at hs
            omega
          exact consumes_cons c (ih rest hlen _ _ _ h)

/-- A successful parse at any fuel consumes a non-empty, well-delimited
prefix (mutual statement for values, array elements and object members). -/
theorem parser_consumes (fuel : Nat) :
    (∀ s v r, parseValue fuel s = .ok (v, r) → Consumes s r)
    ∧ (∀ s xs r, parseElems fuel s = .ok (xs, r) → Consumes s r)
    ∧ (∀ s fs r, parseFields fuel s = .ok (fs, r) → Consumes s r) := by
  induction fuel with
  | zero =>
    refine ⟨?_, ?_, ?_⟩ <;> intro s a r h <;>
      simp [parseValue, parseElems, parseFields] at h
  | succ fuel ih =>
    obtain ⟨ihV, ihE, ihF⟩ := ih
    refine ⟨?_, ?_, ?_⟩
    · -- parseValue
      intro s v r h
      rw [parseValue] at h
      split at h
      · simp at h
      · rename_i c rest heq
        refine consumes_of_dropWhile heq ?_
        split at h
      -- string
        · split at h
          · simp at h
          · rename_i str r1 hps
            simp only [Except.ok.injEq, Prod.mk.injEq] at h
            rw [← h.2]
            exact consumes_cons c
              (parseStringRest_consumes rest.length rest (Nat.le_refl _) _ _ _ hps)
        · split at h
        -- object
          · split at h
            · rename_i r2 hdw
              simp only [Except.ok.injEq, Prod.mk.injEq] at h
              rw [← h.2]
              exact consumes_cons c (consumes_head hdw (by decide))
            · split at h
              · simp at h
              · rename_i fs r2 hpf
                simp only [Except.ok.injEq, Prod.mk.injEq] at h
                rw [← h.2]
                exact consumes_cons c (ihF rest fs r2 hpf)
          · split at h
          -- array
            · split at h
              · rename_i r2 hdw
                simp only [Except.ok.injEq, Prod.mk.injEq] at h
                rw [← h.2]
                exact consumes_cons c (consumes_head hdw (by decide))
              · split at h
                · simp at h
                · rename_i xs r2 hpe
                  simp only [Except.ok.injEq, Prod.mk.injEq] at h
                  rw [← h.2]
                  exact consumes_cons c (ihE rest xs r2 hpe)
            · split at h
            -- true
              · split at h
                · rename_i r2
                  simp only [Except.ok.injEq, Prod.mk.injEq] at h
                  refine ⟨[c, 'r', 'u'], 'e', ?_, by decide⟩
                  rw [← h.2]
                  rfl
                · simp at h
              · split at h
              -- false
                · split at h
                  · rename_i r2
                    simp only [Except.ok.injEq, Prod.mk.injEq] at h
                    refine ⟨[c, 'a', 'l', 's'], 'e', ?_, by decide⟩
                    rw [← h.2]
                    rfl
                  · simp at h
                · split at h
                -- null
                  · split at h
                    · rename_i r2
                      simp only [Except.ok.injEq, Prod.mk.injEq] at h
                      refine ⟨[c, 'u', 'l'], 'l', ?_, by decide⟩
                      rw [← h.2]
                      rfl
                    · simp at h
                  · split at h
                  -- negative number
                    · split at h
                      · simp at h
                      · rename_i ds r2 hdsne hsp
                        simp only [Except.ok.injEq, Prod.mk.injEq] at h
                        have hne : ds ≠ [] := fun hds => hdsne hds
                        rw [← h.2]
                        exact consumes_cons c (consumes_span hsp hne)
                    · split at h
                    -- number
                      · rename_i hdig
                        split at h
                        rename_i ds r2 hsp
                        simp only [Except.ok.injEq, Prod.mk.injEq] at h
                        have hne : ds ≠ [] := by
                          intro hds
                          rw [List.span_eq_take_drop, hds] at hsp
                          have htw := (Prod.mk.injEq _ _ _ _ ▸ hsp).1
                          rw [List.takeWhile_cons, if_pos hdig] at htw
                          exact List.noConfusion htw.symm
                        rw [← h.2]
                        exact consumes_span hsp hne
                      · simp at h
    · -- parseElems
      intro s xs r h
      rw [parseElems] at h
      split at h
      · simp at h
      · rename_i v0 r0 hpv
        have hbase : Consumes s r0 := ihV s v0 r0 hpv
        split at h
        · -- comma
          rename_i r2 hdw
          split at h
          · simp at h
          · rename_i xs2 r3 hpe
            simp only [Except.ok.injEq, Prod.mk.injEq] at h
            rw [← h.2]
            exact consumes_trans (consumes_delim hbase hdw (by decide))
              (ihE r2 xs2 r3 hpe)
        · -- closing bracket
          rename_i r2 hdw
          simp only [Except.ok.injEq, Prod.mk.injEq] at h
          rw [← h.2]
          exact consumes_delim hbase hdw (by decide)
        · simp at h
    · -- parseFields
      intro s fs r h
      rw [parseFields] at h
      split at h
      · -- opening quote of the key
        rename_i r0 hdw0
        split at h
        · simp at h
        · rename_i key r1 hps
          have hbase : Consumes s r1 :=
            consumes_trans (consumes_head hdw0 (by decide))
              (parseStringRest_consumes r0.length r0 (Nat.le_refl _) _ _ _ hps)
          split at h
          · -- colon
            rename_i r2 hdw1
            split at h
            · simp at h
            · rename_i v0 r3 hpv
              have hval : Consumes s r3 :=
                consumes_trans (consumes_delim hbase hdw1 (by decide))
                  (ihV r2 v0 r3 hpv)
              split at h
              · -- comma
                rename_i r4 hdw3
                split at h
                · simp at h
                · rename_i fs2 r5 hpf
                  simp only [Except.ok.injEq, Prod.mk.injEq] at h
                  rw [← h.2]
                  exact consumes_trans (consumes_delim hval hdw3 (by decide))
                    (ihF r4 fs2 r5 hpf)
              · -- closing brace
                rename_i r4 hdw3
                simp only [Except.ok.injEq, Prod.mk.injEq] at h
                rw [← h.2]
                exact consumes_delim hval hdw3 (by decide)
              · simp at h
          · simp at h
      · simp at h

theorem dropWhile_head_false {p : Char → Bool} :
    ∀ {l : List Char} {c : Char} {t : List Char},
      l.dropWhile p = c :: t → p c = false := by
  intro l
  induction l with
  | nil =>
    intro c t h
    simp at h
  | cons a l' ih =>
    intro c t h
    rw [List.dropWhile_cons] at h
    by_cases hp : p a = true
    · rw [if_pos hp] at h
      exact ih h
    · rw [if_neg hp] at h
      injection h with hac _
      rw [← hac]
      simpa using hp

theorem dropWhile_all {p : Char → Bool} :
    ∀ {l : List Char}, l.dropWhile p = [] → ∀ x ∈ l, p x = true := by
  intro l
  induction l with
  | nil =>
    intro _ x hx
    cases hx
  | cons a l' ih =>
    intro h x hx
    rw [List.dropWhile_cons] at h
    by_cases hp : p a = true
    · rw [if_pos hp] at h
      rcases List.mem_cons.mp hx with rfl | hx'
      · exact hp
      · exact ih h x hx'
    · rw [if_neg hp] at h
      exact absurd h (by simp)

theorem dropWhile_eq_nil_of_all {p : Char → Bool} :
    ∀ {l : List Char}, (∀ x ∈ l, p x = true) → l.dropWhile p = [] := by
  intro l
  induction l with
  | nil => intro _; rfl
  | cons a l' ih =>
    intro h
    rw [List.dropWhile_cons, if_pos (h a (List.mem_cons_self a l'))]
    exact ih (fun x hx => h x (List.mem_cons_of_mem a hx))

theorem dropWhileLenLe (p : Char → Bool) :
    ∀ (l : List Char), (l.dropWhile p).length ≤ l.length
  | [] => Nat.le_refl _
  | c :: cs => by
    rw [List.dropWhile_cons]
    by_cases hp : p c = true
    · rw [if_pos hp]
      exact Nat.le_trans (dropWhileLenLe p cs) (by simp)
    · rw [if_neg hp]

/-- Evaluating `dropWhile` over an append. -/
theorem dropWhile_append_eval (p : Char → Bool) :
    ∀ (a b : List Char), List.dropWhile p (a ++ b) =
      if (List.dropWhile p a).isEmpty then List.dropWhile p b
      else List.dropWhile p a ++ b
  | [], b => by simp
  | c :: a', b => by
    have hcons : (c :: a') ++ b = c :: (a' ++ b) := rfl
    rw [hcons, List.dropWhile_cons, List.dropWhile_cons]
    by_cases hp : p c = true
    · rw [if_pos hp, if_pos hp, dropWhile_append_eval p a' b]
    · rw [if_neg hp, if_neg hp]
      simp

theorem dropWhile_idem (p : Char → Bool) (l : List Char) :
    (l.dropWhile p).dropWhile p = l.dropWhile p := by
  cases hd : l.dropWhile p with
  | nil => rfl
  | cons c t =>
    rw [List.dropWhile_cons, if_neg (by simp [dropWhile_head_false hd])]

theorem isPySpace_of_isJsonWs {c : Char} (h : isJsonWs c = true) :
    isPySpace c = true := by
  rw [isJsonWs] at h
  simp only [Bool.or_eq_true, beq_iff_eq] at h
  rcases h with ((rfl | rfl) | rfl) | rfl <;> decide

theorem isJsonWs_eq_false {c : Char} (h : isPySpace c = false) :
    isJsonWs c = false := by
  cases hb : isJsonWs c with
  | false => rfl
  | true => rw [isPySpace_of_isJsonWs hb] at h; exact h.symm ▸ rfl

/-- The value dispatcher rejects a head character that starts no value form
(in particular the vertical-tab and form-feed characters, which
`str.strip()` removes but JSON does not treat as whitespace). -/
theorem parseValue_error_of_bad_head (fuel : Nat) (c : Char) (x : List Char)
    (hws : isJsonWs c = false)
    (h1 : (c == '"') = false) (h2 : (c == '\x7b') = false)
    (h3 : (c == '[') = false) (h4 : (c == 't') = false)
    (h5 : (c == 'f') = false) (h6 : (c == 'n') = false)
    (h7 : (c == '-') = false) (h8 : c.isDigit = false) :
    parseValue (fuel + 1) (c :: x) = .error "Expecting value".data := by
  rw [parseValue]
  have hdw : (c :: x).dropWhile isJsonWs = c :: x := by
    rw [List.dropWhile_cons, if_neg (by simp [hws])]
  rw [hdw]
  simp [h1, h2, h3, h4, h5, h6, h7, h8]

/-- The four fields of `DiagnosisReport` (provider.py lines 5-9). -/
structure DiagnosisReport where
  incident_summary : List Char
  visual_mismatch_identified : Bool
  explanation : List Char
  suggested_fix_logic : List Char
  deriving DecidableEq, Repr

/-- Python-dict key lookup on parsed object fields (last duplicate wins). -/
def objGet (fields : List (List Char × Json)) (key : List Char) : Option Json :=
  (fields.reverse.find? (fun f => f.1 == key)).map (fun f => f.2)

/-- `DiagnosisReport(**data)`: `data` must be a mapping holding the four
required fields with string/boolean values; anything else raises inside the
`try`, which the caller's handler converts to the parsing fallback. -/
def reportOfJson : Json → Except (List Char) DiagnosisReport
  | .jobj fields =>
    match objGet fields "incident_summary".data,
        objGet fields "visual_mismatch_identified".data,
        objGet fields "explanation".data,
        objGet fields "suggested_fix_logic".data with
    | some (.jstr a), some (.jbool b), some (.jstr c), some (.jstr d) =>
        .ok ⟨a, b, c, d⟩
    | _, _, _, _ => .error "Field validation error".data
  | _ => .error "Argument must be a mapping".data

/-- `json.loads` followed by `DiagnosisReport(**data)` on an already-cleaned
text (gemini_provider.py lines 111-112). -/
def jsonToReport (s : List Char) : Except (List Char) DiagnosisReport :=
  match jsonLoads s with
  | .error e => .error e
  | .ok j => reportOfJson j

/-- Fence cleanup followed by `json.loads` and `DiagnosisReport(**data)` —
the whole `try` block at gemini_provider.py lines 105-112. -/
def parseReport (text : List Char) : Except (List Char) DiagnosisReport :=
  jsonToReport (cleanResponse text)

/-- Once `json.loads` succeeds on a text, it gives the same result on the
`str.strip()`-ed text: the parsed core is delimited by non-strippable
characters on both sides, so the Python strip removes exactly the
surrounding JSON whitespace around the same core. -/
theorem jsonToReport_pyStrip {J : List Char} {r : DiagnosisReport}
    (hok : jsonToReport J = .ok r) :
    jsonToReport (pyStrip J) = .ok r := by
  rcases hpv : parseValue ((jsonCore J).length + 1) (jsonCore J) with e | ⟨v, rest⟩
  · rw [jsonToReport, jsonLoads, hpv] at hok
    simp at hok
  · rw [jsonToReport, jsonLoads, hpv] at hok
    replace hok : ((match (if (rest.dropWhile isJsonWs).isEmpty = true
          then (Except.ok v : Except (List Char) Json)
          else Except.error "Extra data".data) with
        | Except.error e => Except.error e
        | Except.ok j => reportOfJson j) :
          Except (List Char) DiagnosisReport) = .ok r := hok
    by_cases hws : (rest.dropWhile isJsonWs).isEmpty = true
    swap
    · rw [if_neg hws] at hok
      simp at hok
    rw [if_pos hws] at hok
    have hrep : reportOfJson v = .ok r := hok
    have hwsEmpty : rest.dropWhile isJsonWs = [] := by
      cases h' : rest.dropWhile isJsonWs with
      | nil => rfl
      | cons a t => rw [h'] at hws; simp at hws
    obtain ⟨pre, d, hKdecomp, hd⟩ :=
      (parser_consumes ((jsonCore J).length + 1)).1 _ _ _ hpv
    have hKrs : (jsonCore J).reverse.dropWhile isJsonWs = (jsonCore J).reverse := by
      have hthis : jsonCore J =
          ((J.dropWhile isJsonWs).reverse.dropWhile isJsonWs).reverse := rfl
      rw [hthis, List.reverse_reverse]
      exact dropWhile_idem _ _
    have hrest : rest = [] := by
      cases hr : rest with
      | nil => rfl
      | cons e0 rest' =>
        have hallws : ∀ x ∈ rest, isJsonWs x = true := dropWhile_all hwsEmpty
        cases hrr : rest.reverse with
        | nil =>
          rw [hr] at hrr
          simp at hrr
        | cons w tl =>
          have hwmem : w ∈ rest := by
            have hw : w ∈ rest.reverse := by
              rw [hrr]
              exact List.mem_cons_self w tl
            exact List.mem_reverse.mp hw
          have hwws : isJsonWs w = true := hallws w hwmem
          have hKrev : (jsonCore J).reverse = w :: (tl ++ d :: pre.reverse) := by
            rw [hKdecomp]
            simp [hrr]
          rw [hKrev, List.dropWhile_cons, if_pos hwws] at hKrs
          have hle := dropWhileLenLe isJsonWs (tl ++ d :: pre.reverse)
          have hlen := congrArg List.length hKrs
          simp only [List.length_cons] at hlen
          omega
    rw [hrest] at hKdecomp
    rcases hK : jsonCore J with _ | ⟨c0, K'⟩
    · rw [hK] at hKdecomp
      exact absurd hKdecomp.symm (by simp)
    · have hMsplit : J.dropWhile isJsonWs = jsonCore J ++
          ((J.dropWhile isJsonWs).reverse.takeWhile isJsonWs).reverse := by
        have h1 : (J.dropWhile isJsonWs).reverse
            = (J.dropWhile isJsonWs).reverse.takeWhile isJsonWs
              ++ (J.dropWhile isJsonWs).reverse.dropWhile isJsonWs :=
          (List.takeWhile_append_dropWhile _ _).symm
        have h2 := congrArg List.reverse h1
        rw [List.reverse_reverse, List.reverse_append] at h2
        exact h2
      have hMcons : J.dropWhile isJsonWs
          = c0 :: (K' ++ ((J.dropWhile isJsonWs).reverse.takeWhile isJsonWs).reverse) := by
        conv_lhs => rw [hMsplit, hK]
        rfl
      have hc0jw : isJsonWs c0 = false := dropWhile_head_false hMcons
      have hc0py : isPySpace c0 = false := by
        cases hps0 : isPySpace c0 with
        | false => rfl
        | true =>
          rw [isPySpace] at hps0
          simp only [Bool.or_eq_true, beq_iff_eq] at hps0
          rcases hps0 with ((((rfl | rfl) | rfl) | rfl) | rfl) | rfl
          · exact absurd hc0jw (by decide)
          · exact absurd hc0jw (by decide)
          · exact absurd hc0jw (by decide)
          · exact absurd hc0jw (by decide)
          · have hbad := parseValue_error_of_bad_head ('\x0b' :: K').length '\x0b' K'
              (by decide) (by decide) (by decide) (by decide) (by decide)
              (by decide) (by decide) (by decide) (by decide)
            rw [hK, hbad] at hpv
            exact absurd hpv (by simp)
          · have hbad := parseValue_error_of_bad_head ('\x0c' :: K').length '\x0c' K'
              (by decide) (by decide) (by decide) (by decide) (by decide)
              (by decide) (by decide) (by decide) (by decide)
            rw [hK, hbad] at hpv
            exact absurd hpv (by simp)
      have hdjw : isJsonWs d = false := isJsonWs_eq_false hd
      have hA : ∀ a ∈ J.takeWhile isJsonWs, isPySpace a = true :=
        fun a ha => isPySpace_of_isJsonWs (List.mem_takeWhile_imp ha)
      have hB : ∀ a ∈ (J.dropWhile isJsonWs).reverse.takeWhile isJsonWs,
          isPySpace a = true :=
        fun a ha => isPySpace_of_isJsonWs (List.mem_takeWhile_imp ha)
      have hpwl : J.dropWhile isPySpace = jsonCore J ++
          ((J.dropWhile isJsonWs).reverse.takeWhile isJsonWs).reverse := by
        have hJsplit : J = J.takeWhile isJsonWs ++ J.dropWhile isJsonWs :=
          (List.takeWhile_append_dropWhile _ _).symm
        conv_lhs => rw [hJsplit]
        rw [dropWhile_append_eval, dropWhile_eq_nil_of_all hA,
          if_pos (show ([] : List Char).isEmpty = true from rfl)]
        conv_lhs => rw [hMcons]
        rw [List.dropWhile_cons, if_neg (by simp [hc0py])]
        conv_rhs => rw [hK]
        rfl
      have hpws : pyStrip J = jsonCore J := by
        rw [pyStrip, hpwl]
        have hrev : (jsonCore J
              ++ ((J.dropWhile isJsonWs).reverse.takeWhile isJsonWs).reverse).reverse
            = (J.dropWhile isJsonWs).reverse.takeWhile isJsonWs
              ++ (jsonCore J).reverse := by
          rw [List.reverse_append, List.reverse_reverse]
        rw [hrev, dropWhile_append_eval, dropWhile_eq_nil_of_all hB,
          if_pos (show ([] : List Char).isEmpty = true from rfl)]
        have hKrev2 : (jsonCore J).reverse = d :: pre.reverse := by
          rw [hKdecomp]
          simp
        rw [hKrev2, List.dropWhile_cons, if_neg (by simp [hd]), ← hKrev2,
          List.reverse_reverse]
      have hcorePy : jsonCore (pyStrip J) = jsonCore J := by
        rw [hpws]
        have hdwl : (jsonCore J).dropWhile isJsonWs = jsonCore J := by
          rw [hK, List.dropWhile_cons, if_neg (by simp [hc0jw])]
        have hKrev2 : (jsonCore J).reverse = d :: pre.reverse := by
          rw [hKdecomp]
          simp
        show (((jsonCore J).dropWhile isJsonWs).reverse.dropWhile isJsonWs).reverse
            = jsonCore J
        rw [hdwl, hKrev2, List.dropWhile_cons, if_neg (by simp [hdjw]), ← hKrev2,
          List.reverse_reverse]
      rw [jsonToReport, jsonLoads, hcorePy, hpv, hrest]
      exact hrep

/-- The oracle interaction as seen by `diagnose`: either `_generate_content`
raised (network error, non-200 status, unexpected response shape — lines
28-39) or it returned the response text. -/
inductive OracleOutcome where
  | apiError (msg : List Char)
  | text (t : List Char)

/-- `GeminiProvider.diagnose` response handling (gemini_provider.py lines
90-120): an oracle-call failure yields the generation fallback; otherwise the
cleaned text is parsed, and any parsing/validation failure yields the parsing
fallback.  Total function — the Python method never raises. -/
def diagnose (o : OracleOutcome) : DiagnosisReport :=
  match o with
  | .apiError msg =>
      ⟨"AI Generation Error".data, false,
        "Diagnosis generation failed: ".data ++ msg,
        "Manual review required.".data⟩
  | .text t =>
    match parseReport t with
    | .ok r => r
    | .error e =>
        ⟨"AI Analysis Error".data, false,
          "Failed to parse Gemini response: ".data ++ e,
          "Manual review required.".data⟩

/-- C3: `diagnose` is total (never raises), and on every failure mode — an
oracle-call error, or a response whose cleaned text fails JSON parsing or
report validation — it returns a fallback report whose
`visual_mismatch_identified` is `false` and whose explanation is a non-empty
string carrying the error description. -/
theorem c3_diagnose_fallback (msg t e : List Char)
    (hfail : parseReport t = .error e) :
    (diagnose (.apiError msg)).visual_mismatch_identified = false
    ∧ (diagnose (.apiError msg)).explanation ≠ []
    ∧ (diagnose (.text t)).visual_mismatch_identified = false
    ∧ (diagnose (.text t)).explanation =
        "Failed to parse Gemini response: ".data ++ e
    ∧ (diagnose (.text t)).explanation ≠ [] := by
  refine ⟨rfl, by simp [diagnose], ?_, ?_, ?_⟩
  · simp [diagnose, hfail]
  · simp [diagnose, hfail]
  · simp [diagnose, hfail]

/-- Witness for C3: a non-JSON response and a valid-JSON-but-wrong-shape
response both fall back with the flag cleared and a non-empty explanation. -/
theorem c3_diagnose_fallback_witness :
    (diagnose (.apiError "boom".data)).visual_mismatch_identified = false
    ∧ (diagnose (.text "hello oracle".data)).visual_mismatch_identified = false
    ∧ (diagnose (.text "hello oracle".data)).explanation ≠ []
    ∧ (diagnose (.text "[1, 2]".data)).visual_mismatch_identified = false
    ∧ (diagnose (.text "[1, 2]".data)).explanation ≠ [] := by
  have h1 := c3_diagnose_fallback "boom".data "hello oracle".data
    "Expecting value".data (by rfl)
  have h2 := c3_diagnose_fallback "boom".data "[1, 2]".data
    "Argument must be a mapping".data (by rfl)
  exact ⟨h1.1, h1.2.2.1, h1.2.2.2.2, h2.2.2.1, h2.2.2.2.2⟩

/-! ## C7: fenced versus unfenced responses -/

/-- The oracle response consisting of `j` wrapped in a ```json markdown code
fence: `"```json\n" ++ j ++ "\n```"`. -/
def wrapJson (j : List Char) : List Char :=
  sepTicksJson ++ '\n' :: (j ++ '\n' :: sepTicks)

/-- A syntactically valid report object whose `explanation` string contains a
``` fence marker. -/
def tickyReport : List Char :=
  ("\x7b\"incident_summary\":\"x\",\"visual_mismatch_identified\":true," ++
    "\"explanation\":\"a```b\",\"suggested_fix_logic\":\"f\"\x7d").data

theorem listPre_append_self : ∀ (p t : List Char), listPre p (p ++ t) = true
  | [], _ => rfl
  | c :: ps, t => by simp [listPre, listPre_append_self ps t]

theorem firstOcc_append_self (c : Char) (sr t : List Char) :
    firstOcc (c :: sr) ((c :: sr) ++ t) = some 0 := by
  have h : (c :: sr) ++ t = c :: (sr ++ t) := rfl
  rw [h, firstOcc, ← h, listPre_append_self]
  rfl

theorem listPre_weaken : ∀ (p q t : List Char),
    listPre (p ++ q) t = true → listPre p t = true
  | [], _, _, _ => rfl
  | a :: p', q, [], h => by
    have hcons : (a :: p') ++ q = a :: (p' ++ q) := rfl
    rw [hcons] at h
    simp [listPre] at h
  | a :: p', q, c :: t', h => by
    have hcons : (a :: p') ++ q = a :: (p' ++ q) := rfl
    rw [hcons, listPre, Bool.and_eq_true] at h
    rw [listPre, Bool.and_eq_true]
    exact ⟨h.1, listPre_weaken p' q t' h.2⟩

/-- No occurrence of a pattern implies none of any extension of it. -/
theorem firstOcc_mono (a : Char) (p' q : List Char) :
    ∀ (s : List Char), firstOcc (a :: p') s = none →
      firstOcc ((a :: p') ++ q) s = none
  | [], _ => by
    rw [firstOcc]
    simp
  | c :: t, h => by
    rw [firstOcc] at h
    by_cases hlp : listPre (a :: p') (c :: t) = true
    · rw [if_pos hlp] at h
      exact absurd h (by simp)
    · rw [if_neg hlp] at h
      have ht : firstOcc (a :: p') t = none := by
        cases hfo : firstOcc (a :: p') t
        · rfl
        · rw [hfo] at h
          simp at h
      rw [firstOcc]
      have hlp2 : ¬ listPre ((a :: p') ++ q) (c :: t) = true := fun hT =>
        hlp (listPre_weaken (a :: p') q (c :: t) hT)
      rw [if_neg hlp2, firstOcc_mono a p' q t ht]
      rfl

/-- A pattern match across a barrier character absent from the pattern
implies a match before it. -/
theorem listPre_barrier (e : Char) : ∀ (p x y : List Char), e ∉ p →
    listPre p (x ++ e :: y) = true → listPre p x = true
  | [], _, _, _, _ => rfl
  | a :: p', [], y, he, h => by
    rw [List.nil_append, listPre, Bool.and_eq_true] at h
    have hne : a ≠ e := fun hae => he (hae ▸ List.mem_cons_self a p')
    exact absurd (by simpa using h.1) hne
  | a :: p', c :: x', y, he, h => by
    have hcons : (c :: x') ++ e :: y = c :: (x' ++ e :: y) := rfl
    rw [hcons, listPre, Bool.and_eq_true] at h
    rw [listPre, Bool.and_eq_true]
    exact ⟨h.1, listPre_barrier e p' x' y
      (fun hm => he (List.mem_cons_of_mem a hm)) h.2⟩

/-- A pattern avoiding a barrier character cannot straddle it: no occurrence
on either side means none in the joined string. -/
theorem firstOcc_barrier_none (e : Char) (a0 : Char) (p' : List Char)
    (he : e ∉ a0 :: p') :
    ∀ (x y : List Char), firstOcc (a0 :: p') x = none →
      firstOcc (a0 :: p') y = none →
      firstOcc (a0 :: p') (x ++ e :: y) = none
  | [], y, _, hy => by
    rw [List.nil_append, firstOcc]
    have hne : a0 ≠ e := fun h0 => he (h0 ▸ List.mem_cons_self a0 p')
    have hlp : ¬ listPre (a0 :: p') (e :: y) = true := by
      rw [listPre, Bool.and_eq_true]
      intro hT
      exact hne (by simpa using hT.1)
    rw [if_neg hlp, hy]
    rfl
  | c :: x', y, hx, hy => by
    rw [firstOcc] at hx
    by_cases hlp : listPre (a0 :: p') (c :: x') = true
    · rw [if_pos hlp] at hx
      exact absurd hx (by simp)
    · rw [if_neg hlp] at hx
      have hx' : firstOcc (a0 :: p') x' = none := by
        cases hfo : firstOcc (a0 :: p') x'
        · rfl
        · rw [hfo] at hx
          simp at hx
      have hcons : (c :: x') ++ e :: y = c :: (x' ++ e :: y) := rfl
      rw [hcons, firstOcc]
      have hlp2 : ¬ listPre (a0 :: p') (c :: (x' ++ e :: y)) = true := by
        intro hT
        exact hlp (listPre_barrier e (a0 :: p') (c :: x') y he (by rw [hcons]; exact hT))
      rw [if_neg hlp2, firstOcc_barrier_none e a0 p' he x' y hx' hy]
      rfl

/-- The first occurrence after an occurrence-free block, across a barrier
character absent from the pattern, is shifted by the block's length. -/
theorem firstOcc_barrier_shift (e : Char) (a0 : Char) (p' : List Char)
    (he : e ∉ a0 :: p') :
    ∀ (x y : List Char), firstOcc (a0 :: p') x = none →
      firstOcc (a0 :: p') (x ++ e :: y) =
        (firstOcc (a0 :: p') (e :: y)).map (fun i => i + x.length)
  | [], y, _ => by
    cases hfo : firstOcc (a0 :: p') (e :: y) <;> simp [hfo]
  | c :: x', y, hx => by
    rw [firstOcc] at hx
    by_cases hlp : listPre (a0 :: p') (c :: x') = true
    · rw [if_pos hlp] at hx
      exact absurd hx (by simp)
    · rw [if_neg hlp] at hx
      have hx' : firstOcc (a0 :: p') x' = none := by
        cases hfo : firstOcc (a0 :: p') x'
        · rfl
        · rw [hfo] at hx
          simp at hx
      have hcons : (c :: x') ++ e :: y = c :: (x' ++ e :: y) := rfl
      rw [hcons, firstOcc]
      have hlp2 : ¬ listPre (a0 :: p') (c :: (x' ++ e :: y)) = true := by
        intro hT
        exact hlp (listPre_barrier e (a0 :: p') (c :: x') y he (by rw [hcons]; exact hT))
      rw [if_neg hlp2, firstOcc_barrier_shift e a0 p' he x' y hx']
      cases hfo : firstOcc (a0 :: p') (e :: y)
      · simp [hfo]
      · simp only [hfo, Option.map_some, List.length_cons]
        have harith : ∀ i : Nat, i + x'.length + 1 = i + (x'.length + 1) :=
          fun i => by omega
        simp [harith]

/-- With positive fuel and no separator occurrence, the splitter returns the
whole string. -/
theorem pySplitF_of_none {fuel : Nat} (sep s : List Char)
    (hf : 0 < fuel) (h : firstOcc sep s = none) :
    pySplitF fuel sep s = [s] := by
  cases fuel with
  | zero => omega
  | succ n => rw [pySplitF, h]

/-- One splitter step at the first occurrence. -/
theorem pySplitF_succ_of_some (fuel : Nat) (sep s : List Char) (i : Nat)
    (h : firstOcc sep s = some i) :
    pySplitF (fuel + 1) sep s =
      s.take i :: pySplitF fuel sep (s.drop (i + sep.length)) := by
  rw [pySplitF, h]


/-- `str.strip()` ignores one added newline on each side. -/
theorem pyStrip_wrap_nl (x : List Char) :
    pyStrip ('\n' :: (x ++ ['\n'])) = pyStrip x := by
  have hnl : isPySpace '\n' = true := by decide
  have h1 : List.dropWhile isPySpace ('\n' :: (x ++ ['\n'])) =
      List.dropWhile isPySpace (x ++ ['\n']) := by
    rw [List.dropWhile_cons, if_pos hnl]
  rw [pyStrip, pyStrip, h1, dropWhile_append_eval]
  cases hdx : List.dropWhile isPySpace x with
  | nil =>
    have hone : List.dropWhile isPySpace ['\n'] = [] := by
      rw [List.dropWhile_cons, if_pos hnl]
      rfl
    simp [hone]
  | cons c t =>
    have hrev : ((c :: t) ++ ['\n']).reverse = '\n' :: (c :: t).reverse := by simp
    simp only [List.isEmpty_cons, Bool.false_eq_true, if_false]
    rw [hrev, List.dropWhile_cons, if_pos hnl]

/-- Without any ``` occurrence neither fence separator occurs in the text,
so the cleanup leaves it unchanged. -/
theorem cleanResponse_of_no_fence {J : List Char}
    (hnt : firstOcc sepTicks J = none) :
    cleanResponse J = J := by
  have h1 : firstOcc sepTicksJson J = none :=
    firstOcc_mono tick [tick, tick] ['j', 's', 'o', 'n'] J hnt
  rw [cleanResponse]
  simp [pyContains, h1, hnt]

theorem diagnose_text_of_clean {t J' : List Char} {r : DiagnosisReport}
    (hclean : cleanResponse t = J') (hok : jsonToReport J' = .ok r) :
    diagnose (.text t) = r := by
  have hp : parseReport t = .ok r := by
    rw [parseReport, hclean, hok]
  simp [diagnose, hp]

/-- The cleanup applied to a fence-wrapped body containing no ``` marker:
the `"```json"` split isolates `"\n" ++ J ++ "\n```"` (a newline occurs in
neither separator, so `J`'s isolated backticks cannot combine with the
fences), the `"```"` split cuts exactly at the trailing fence, and the final
strip yields the stripped body. -/
theorem cleanResponse_wrapJson {J : List Char}
    (hnt : firstOcc sepTicks J = none) :
    cleanResponse (wrapJson J) = pyStrip J := by
  have hmono : firstOcc sepTicksJson J = none :=
    firstOcc_mono tick [tick, tick] ['j', 's', 'o', 'n'] J hnt
  have hmid : wrapJson J = sepTicksJson ++ ('\n' :: (J ++ '\n' :: sepTicks)) := rfl
  have hoccJson : firstOcc sepTicksJson (wrapJson J) = some 0 :=
    firstOcc_append_self tick [tick, tick, 'j', 's', 'o', 'n']
      ('\n' :: (J ++ '\n' :: sepTicks))
  have hcontJson : pyContains (wrapJson J) sepTicksJson = true := by
    simp [pyContains, hoccJson]
  have hnmemJson : '\n' ∉ (tick :: [tick, tick, 'j', 's', 'o', 'n']) := by decide
  have hnmemTicks : '\n' ∉ (tick :: [tick, tick]) := by decide
  have hJsonTicks : firstOcc sepTicksJson sepTicks = none := rfl
  have hTailJson : firstOcc sepTicksJson ('\n' :: (J ++ '\n' :: sepTicks)) = none := by
    have hJside : firstOcc sepTicksJson (J ++ '\n' :: sepTicks) = none :=
      firstOcc_barrier_none '\n' tick [tick, tick, 'j', 's', 'o', 'n'] hnmemJson
        J sepTicks hmono hJsonTicks
    have h0 := firstOcc_barrier_none '\n' tick [tick, tick, 'j', 's', 'o', 'n']
      hnmemJson [] (J ++ '\n' :: sepTicks) rfl hJside
    simpa using h0
  have hTicksSelf : firstOcc sepTicks ('\n' :: sepTicks) = some 1 := rfl
  have hTailTicks : firstOcc sepTicks ('\n' :: (J ++ '\n' :: sepTicks))
      = some (J.length + 2) := by
    have hnJ : firstOcc sepTicks ('\n' :: J) = none := by
      have h0 := firstOcc_barrier_none '\n' tick [tick, tick] hnmemTicks [] J rfl hnt
      simpa using h0
    have hshift := firstOcc_barrier_shift '\n' tick [tick, tick] hnmemTicks
      ('\n' :: J) sepTicks hnJ
    have hform : ('\n' :: J) ++ '\n' :: sepTicks = '\n' :: (J ++ '\n' :: sepTicks) := rfl
    rw [hform] at hshift
    have hshift2 : firstOcc sepTicks ('\n' :: (J ++ '\n' :: sepTicks))
        = (firstOcc sepTicks ('\n' :: sepTicks)).map (fun i => i + ('\n' :: J).length) :=
      hshift
    rw [hshift2, hTicksSelf]
    simp only [Option.map_some', List.length_cons, Option.some.injEq]
    omega
  have hsplitJson : pySplit sepTicksJson (wrapJson J)
      = [[], '\n' :: (J ++ '\n' :: sepTicks)] := by
    rw [pySplit, pySplitF_succ_of_some _ _ _ _ hoccJson]
    have hdrop : (wrapJson J).drop (0 + sepTicksJson.length)
        = '\n' :: (J ++ '\n' :: sepTicks) := by
      rw [hmid, Nat.zero_add, List.drop_left]
    rw [hdrop]
    have hfuel : 0 < (wrapJson J).length := by
      rw [hmid]
      simp [sepTicksJson]
    rw [pySplitF_of_none _ _ hfuel hTailJson, List.take_zero]
  have hsplitTicks : (pySplit sepTicks ('\n' :: (J ++ '\n' :: sepTicks))).getD 0 []
      = '\n' :: (J ++ ['\n']) := by
    rw [pySplit, pySplitF_succ_of_some _ _ _ _ hTailTicks]
    have hform2 : ('\n' :: (J ++ '\n' :: sepTicks))
        = ('\n' :: (J ++ ['\n'])) ++ sepTicks := by simp
    have hU : ('\n' :: (J ++ ['\n'])).length = J.length + 2 := by simp
    have htake : ('\n' :: (J ++ '\n' :: sepTicks)).take (J.length + 2)
        = '\n' :: (J ++ ['\n']) := by
      rw [hform2, ← hU, List.take_left]
    rw [htake]
    rfl
  rw [cleanResponse, if_pos hcontJson, hsplitJson]
  have hgetD : ([[], '\n' :: (J ++ '\n' :: sepTicks)] : List (List Char)).getD 1 []
      = '\n' :: (J ++ '\n' :: sepTicks) := rfl
  rw [hgetD, hsplitTicks]
  exact pyStrip_wrap_nl J

set_option maxRecDepth 10000 in
/-- C7 fails as stated: `tickyReport` is a JSON object text that parses to a
valid report (its `explanation` contains a ``` marker), yet `diagnose` on the
fence-wrapped response and on the bare response return different reports —
the cleanup cuts both texts at the embedded marker, at different places, so
the two sides fail with different parse errors. -/
theorem c7_counterexample :
    jsonToReport tickyReport = .ok ⟨"x".data, true, "a```b".data, "f".data⟩
    ∧ diagnose (.text (wrapJson tickyReport)) =
        ⟨"AI Analysis Error".data, false,
          "Failed to parse Gemini response: Unterminated string".data,
          "Manual review required.".data⟩
    ∧ diagnose (.text tickyReport) =
        ⟨"AI Analysis Error".data, false,
          "Failed to parse Gemini response: Expecting value".data,
          "Manual review required.".data⟩
    ∧ diagnose (.text (wrapJson tickyReport)) ≠ diagnose (.text tickyReport) := by
  have h2 : diagnose (.text (wrapJson tickyReport)) =
      ⟨"AI Analysis Error".data, false,
        "Failed to parse Gemini response: Unterminated string".data,
        "Manual review required.".data⟩ := rfl
  have h3 : diagnose (.text tickyReport) =
      ⟨"AI Analysis Error".data, false,
        "Failed to parse Gemini response: Expecting value".data,
        "Manual review required.".data⟩ := rfl
  refine ⟨rfl, h2, h3, ?_⟩
  rw [h2, h3]
  decide

/-- A report object padded with surrounding whitespace whose `explanation`
holds a lone backtick: whitespace and isolated backticks survive the
round-trip, only a full ``` marker does not. -/
def paddedReport : List Char :=
  ("  \x7b\"incident_summary\":\"x\",\"visual_mismatch_identified\":true," ++
    "\"explanation\":\"e\x60e\",\"suggested_fix_logic\":\"f\"\x7d \n").data

/-- C7 amended: for every JSON object text J that parses to a valid
DiagnosisReport and contains no ``` substring, `diagnose` applied to J
wrapped in a ```json fence produces the same parsed report as `diagnose`
applied to J unwrapped. -/
theorem c7_fence_wrapping_equal {J : List Char} {r : DiagnosisReport}
    (hnt : pyContains J sepTicks = false)
    (hok : jsonToReport J = .ok r) :
    diagnose (.text (wrapJson J)) = diagnose (.text J)
    ∧ diagnose (.text J) = r := by
  have hocc : firstOcc sepTicks J = none := by
    cases hf : firstOcc sepTicks J with
    | none => rfl
    | some i =>
      rw [pyContains, hf] at hnt
      simp at hnt
  have h1 : diagnose (.text (wrapJson J)) = r :=
    diagnose_text_of_clean (cleanResponse_wrapJson hocc) (jsonToReport_pyStrip hok)
  have h2 : diagnose (.text J) = r :=
    diagnose_text_of_clean (cleanResponse_of_no_fence hocc) hok
  exact ⟨h1.trans h2.symm, h2⟩

set_option maxRecDepth 10000 in
theorem c7_fence_wrapping_equal_witness :
    diagnose (.text (wrapJson paddedReport)) = diagnose (.text paddedReport)
    ∧ diagnose (.text paddedReport)
        = ⟨"x".data, true, "e\x60e".data, "f".data⟩ :=
  c7_fence_wrapping_equal (by decide) (by rfl)

/-! ## Ingestion validation: `TraceEventCreate` / `create_event`

schemas.py line 36 constrains `event_type` with `max_length=50`; the
`validate_event_type` field validator (lines 41-46) raises `ValueError` when
the stripped kind is empty and otherwise returns the stripped kind.  A
pydantic validation failure makes FastAPI reject the request with a 422
client error before the endpoint body runs; otherwise `create_event`
(traces.py lines 156-189) persists the event via `db.add`/`db.flush`.
Nothing anywhere in the pipeline compares the kind against a vocabulary. -/

/-- The fixed event-kind vocabulary named by the spec (§3). -/
def eventTypeVocab : List (List Char) :=
  ["chain_start".data, "chain_end".data, "chain_error".data,
   "tool_start".data, "tool_end".data, "tool_error".data,
   "llm_start".data, "llm_end".data, "agent_action".data, "agent_finish".data]

/-- Pydantic validation of the `event_type` field: the `max_length=50`
constraint, then `validate_event_type` (empty after stripping → reject,
otherwise the stripped value). -/
def validate_event_type (v : List Char) : Except Unit (List Char) :=
  if 50 < v.length then .error ()
  else if pyStrip v = [] then .error ()
  else .ok (pyStrip v)

/-- The event-kind path of the ingestion endpoint: a validation failure is a
client-error response and nothing is persisted; otherwise the stripped kind
is appended to the store. -/
def create_event (store : List (List Char)) (v : List Char) :
    Except Unit (List (List Char)) :=
  match validate_event_type v with
  | .error e => .error e
  | .ok cleaned => .ok (store ++ [cleaned])

/-- C8 fails as stated: the kind `bogus_kind` is outside the fixed
vocabulary, yet ingestion accepts and persists it — only emptiness (and
length) is validated, never vocabulary membership. -/
theorem c8_counterexample :
    create_event [] "bogus_kind".data = .ok ["bogus_kind".data]
    ∧ "bogus_kind".data ∉ eventTypeVocab := by
  exact ⟨rfl, by decide⟩

/-- C8 (amended): an empty or whitespace-only event kind (or one longer than
50 characters) is rejected at ingestion with a client-error condition before
any event is persisted; but the fixed vocabulary is not enforced — every
other kind, in or out of the vocabulary, is accepted and persisted after
stripping. -/
theorem c8_empty_kind_rejected (store : List (List Char)) (v : List Char) :
    (pyStrip v = [] → create_event store v = .error ())
    ∧ (50 < v.length → create_event store v = .error ())
    ∧ (pyStrip v ≠ [] → v.length ≤ 50 →
        create_event store v = .ok (store ++ [pyStrip v])) := by
  refine ⟨?_, ?_, ?_⟩
  · intro h
    by_cases hlen : 50 < v.length <;>
      simp [create_event, validate_event_type, h, hlen]
  · intro hlen
    simp [create_event, validate_event_type, hlen]
  · intro h hlen
    have hlen' : ¬ 50 < v.length := by omega
    simp [create_event, validate_event_type, h, hlen']

/-- Witness for C8 (amended): a whitespace-only kind is rejected, a non-empty
out-of-vocabulary kind is accepted and persisted. -/
theorem c8_empty_kind_rejected_witness :
    create_event [] "   ".data = .error ()
    ∧ create_event [] "custom_kind".data = .ok ["custom_kind".data] := by
  have h1 := (c8_empty_kind_rejected [] "   ".data).1 (by rfl)
  have h2 := (c8_empty_kind_rejected [] "custom_kind".data).2.2
    (by decide) (by decide)
  exact ⟨h1, h2⟩

end Epilog
